import Mathlib

/-!
Verification of the filename-cleaning core of the zelmedia repository
(`src/zelmedia/core/rename.py` together with the patterns of
`src/zelmedia/core/constants.py`).

Strings are modelled as `List Char`.  Modelling conventions, each noted at
the definition it concerns:
* the regex character class `\d` is modelled as the ASCII digits
  (`Char.isDigit`);
* `str.lower` is modelled as `Char.toLower` (ASCII case folding; every
  configured tag is ASCII);
* the regex anchor `$` is modelled as end-of-string (filenames containing
  a trailing newline are outside the modelled domain);
* `pathlib.Path.stem` / `Path.suffix` are modelled by `splitExt`, which
  follows the CPython rule: the name splits at the last dot only when that
  dot is neither the first nor the last character.
-/

/-- The delimiter class of `re.split(r"[.\-_ ]+", stem)` in
`build_clean_name`. -/
def isDelim (c : Char) : Bool :=
  c = '.' || c = '-' || c = '_' || c = ' '

/-- The bracket characters tested by
`any(ch in tok for ch in "[]{}()")` in `build_clean_name`. -/
def isBracketChar (c : Char) : Bool :=
  c = '[' || c = ']' || c = '{' || c = '}' || c = '(' || c = ')'

/-- `str.lower`, modelled as ASCII case folding. -/
def pyLower (s : List Char) : List Char :=
  s.map Char.toLower

/-- The set `_UNWANTED_EQUAL = {w.lower() for w in UNWANTED_WORDS}` of
`constants.py`, as a list of lower-cased words. -/
def _UNWANTED_EQUAL : List (List Char) :=
  ["1080p", "720p", "2160p", "4k", "uhd",
   "bluray", "webrip", "brrip", "hdrip", "dvdrip",
   "x264", "x265", "h264", "h265", "hevc",
   "aac", "aac5", "ddp5", "ddp5_1", "dts", "atmos",
   "yify", "yts", "repack", "proper",
   "sample", "trailer", "bokutox"].map (fun s => s.toList)

/-- `is_unwanted` of `rename.py`: `token.lower() in _UNWANTED_EQUAL`. -/
def is_unwanted (tok : List Char) : Bool :=
  _UNWANTED_EQUAL.contains (pyLower tok)

/-- The body `(19|20)\d{2}` shared by `YEAR_RE`, `PAREN_YEAR_SEARCH` and
`READY_PATTERN`: first char `1` or `2`, second char `9` or `0`
correspondingly, then two digits. -/
def yearShape (a b c d : Char) : Bool :=
  ((a = '1' && b = '9') || (a = '2' && b = '0')) && c.isDigit && d.isDigit

/-- `YEAR_RE.fullmatch(tok)`: the token is exactly `(19|20)\d{2}`. -/
def isYearTok : List Char → Bool
  | [a, b, c, d] => yearShape a b c d
  | _ => false

/-- `READY_PATTERN.search(stem)` for the anchored pattern
`_\((19|20)\d{2}\)$`: the stem ends with `_(` + year + `)`. -/
def readyEnd (s : List Char) : Bool :=
  match s.reverse with
  | e :: d :: c :: b :: a :: p :: u :: _ =>
    e = ')' && p = '(' && u = '_' && yearShape a b c d
  | _ => false

/-- The Python substring test `"_1_" in stem`. -/
def containsDup1 : List Char → Bool
  | [] => false
  | c :: rest =>
    if c = '_' then
      match rest with
      | d :: e :: _ => if d = '1' && e = '_' then true else containsDup1 rest
      | _ => containsDup1 rest
    else containsDup1 rest

/-- A match of `PAREN_YEAR_SEARCH` starting at the head of the string:
`(` + year + `)`; returns the four digits and the remainder. -/
def yearAtHead : List Char → Option (List Char × List Char)
  | p :: a :: b :: c :: d :: q :: tail =>
    if p = '(' && q = ')' && yearShape a b c d then
      some ([a, b, c, d], tail)
    else none
  | _ => none

/-- `PAREN_YEAR_SEARCH.search(stem)`: the leftmost `(YYYY)` occurrence,
returned as (prefix before the match, the four digits, suffix after). -/
def findParenYear : List Char → Option (List Char × List Char × List Char)
  | [] => none
  | c :: rest =>
    match yearAtHead (c :: rest) with
    | some (y, tail) => some ([], y, tail)
    | none =>
      match findParenYear rest with
      | some (pre, y, post) => some (c :: pre, y, post)
      | none => none

/-- Step 1 of `build_clean_name`: extract the first embedded `(YEAR)` and
splice it out of the stem (`stem[:m.start()] + stem[m.end():]`). -/
def extractYear (stem : List Char) : Option (List Char) × List Char :=
  match findParenYear stem with
  | some (pre, y, post) => (some y, pre ++ post)
  | none => (none, stem)

/-- `re.split(r"[.\-_ ]+", stem)`: auxiliary scanner.  `acc` holds the
current token reversed; a maximal run of delimiters ends one token. -/
def pySplitAux : List Char → List Char → List (List Char)
  | [], acc => [acc.reverse]
  | [c], acc => if isDelim c then [acc.reverse, []] else [(c :: acc).reverse]
  | c :: c2 :: rest, acc =>
    if isDelim c then
      if isDelim c2 then pySplitAux (c2 :: rest) acc
      else acc.reverse :: pySplitAux (c2 :: rest) []
    else pySplitAux (c2 :: rest) (c :: acc)

/-- `re.split(r"[.\-_ ]+", stem)`: splits on maximal delimiter runs,
keeping the empty boundary tokens that `re.split` produces. -/
def pySplit (s : List Char) : List (List Char) :=
  pySplitAux s []

/-- The token-classification loop of `build_clean_name` (lines 60–74),
threading the `year` variable through the token list and returning the
final `year` together with `title_parts`. -/
def classifyTokens : Option (List Char) → List (List Char) →
    Option (List Char) × List (List Char)
  | year, [] => (year, [])
  | year, tok :: rest =>
    if tok = [] then classifyTokens year rest
    else if year.isNone && isYearTok tok then classifyTokens (some tok) rest
    else if is_unwanted tok || tok.any isBracketChar then classifyTokens year rest
    else if tok = ['1'] then classifyTokens year rest
    else if !tok.isEmpty && tok.all Char.isDigit && decide (tok.length < 4)
        && year.isNone then
      ((classifyTokens year rest).1, tok :: (classifyTokens year rest).2)
    else
      ((classifyTokens year rest).1, tok :: (classifyTokens year rest).2)

/-- Steps 1–2 of `build_clean_name` combined: year extraction, then
tokenisation and classification of the remaining stem. -/
def classified (stem : List Char) : Option (List Char) × List (List Char) :=
  classifyTokens (extractYear stem).1 (pySplit (extractYear stem).2)

/-- `"_".join(title_parts)`. -/
def joinUnderscore : List (List Char) → List Char
  | [] => []
  | [t] => t
  | t :: ts => t ++ '_' :: joinUnderscore ts

/-- `collapse_underscores` of `rename.py`:
`re.sub(r"_{2,}", "_", text)`, reducing each maximal run of two or more
underscores to a single one. -/
def collapse_underscores : List Char → List Char
  | [] => []
  | c :: rest =>
    match rest with
    | d :: _ =>
      if c = '_' && d = '_' then collapse_underscores rest
      else c :: collapse_underscores rest
    | [] => [c]

/-- Python `str.strip("_")`: drop leading and trailing underscores. -/
def stripUnderscore (s : List Char) : List Char :=
  ((s.dropWhile (fun c => c = '_')).reverse.dropWhile (fun c => c = '_')).reverse

/-- The lookahead `(?=(_|\(|$))` of the duplicate-counter substitution. -/
def lookOk (s : List Char) : Bool :=
  match s with
  | [] => true
  | c :: _ => c = '_' || c = '('

/-- `re.sub(r"(^|_)1(?=(_|\(|$))", r"\1", new_stem)`: left-to-right scan;
the flag records whether the scanner still stands at the start of the
string (where the `^` alternative can fire). -/
def subDupAux : Bool → List Char → List Char
  | _, [] => []
  | start, [c] => if start && c = '1' then [] else [c]
  | start, c :: d :: rest =>
    if start && c = '1' && lookOk (d :: rest) then subDupAux false (d :: rest)
    else if c = '_' && d = '1' && lookOk rest then c :: subDupAux false rest
    else if c = '_' && d = '1' then c :: d :: subDupAux false rest
    else c :: subDupAux false (d :: rest)

/-- The duplicate-counter substitution of line 87 of `rename.py`. -/
def subDup (s : List Char) : List Char :=
  subDupAux true s

/-- The tail appended at reassembly: `_(` + year + `)` when a year was
found, nothing otherwise (`f"{title}_({year})" if year else title`). -/
def yearTail : Option (List Char) → List Char
  | none => []
  | some y => '_' :: '(' :: (y ++ [')'])

/-- Lines 81–88 of `build_clean_name`: join the surviving tokens, attach
the year, collapse and strip underscores, run the duplicate-counter
substitution, and collapse and strip once more. -/
def assembleStem (y : Option (List Char)) (parts : List (List Char)) : List Char :=
  let title := collapse_underscores (joinUnderscore parts)
  let stem2 := stripUnderscore (collapse_underscores (title ++ yearTail y))
  stripUnderscore (collapse_underscores (subDup stem2))

/-- The reassembly with the final duplicate-counter cleanup pass
(lines 85–88) removed: stop after the first collapse-and-strip. -/
def assembleStemNoCleanup (y : Option (List Char)) (parts : List (List Char)) :
    List Char :=
  let title := collapse_underscores (joinUnderscore parts)
  stripUnderscore (collapse_underscores (title ++ yearTail y))

/-- Locate the last `.` of a name: `some (pre, post)` with
`name = pre ++ '.' :: post` and `post` dot-free, `none` when the name has
no dot. -/
def splitAtLastDot : List Char → Option (List Char × List Char)
  | [] => none
  | c :: rest =>
    match splitAtLastDot rest with
    | some (pre, post) => some (c :: pre, post)
    | none => if c = '.' then some ([], rest) else none

/-- `pathlib` stem/suffix of a file name: split at the last dot when that
dot is neither the first nor the last character, otherwise the whole name
is the stem and the suffix is empty. -/
def splitExt (name : List Char) : List Char × List Char :=
  match splitAtLastDot name with
  | some (pre, post) =>
    if pre ≠ [] ∧ post ≠ [] then (pre, '.' :: post) else (name, [])
  | none => (name, [])

/-- The already-clean short-circuit test of line 47:
`READY_PATTERN.search(stem) and "_1_" not in stem`. -/
def guardReady (stem : List Char) : Bool :=
  readyEnd stem && !containsDup1 stem

/-- `build_clean_name` of `rename.py`, on the file name (the final path
component); the result is the new file name. -/
def build_clean_name (name : List Char) : List Char :=
  let stem := (splitExt name).1
  if guardReady stem then name
  else
    let c := classified stem
    if c.2 = [] then name
    else assembleStem c.1 c.2 ++ (splitExt name).2

/-- The non-short-circuit part of `build_clean_name`: the pipeline of
lines 50–90, run unconditionally. -/
def pipelineRest (name : List Char) : List Char :=
  let c := classified (splitExt name).1
  if c.2 = [] then name
  else assembleStem c.1 c.2 ++ (splitExt name).2

/-- `build_clean_name` with the final duplicate-counter cleanup pass
(lines 85–88) removed. -/
def build_clean_name_noCleanup (name : List Char) : List Char :=
  let stem := (splitExt name).1
  if guardReady stem then name
  else
    let c := classified stem
    if c.2 = [] then name
    else assembleStemNoCleanup c.1 c.2 ++ (splitExt name).2

/-- `__` never occurs in the string. -/
def noDouble : List Char → Bool
  | c :: d :: rest => !(c = '_' && d = '_') && noDouble (d :: rest)
  | _ => true

/-- The shape of every token that survives classification: non-empty, not
the bare duplicate counter `1`, and free of delimiter and bracket
characters. -/
def GoodTok (t : List Char) : Prop :=
  t ≠ [] ∧ t ≠ ['1'] ∧ ∀ c ∈ t, isDelim c = false ∧ isBracketChar c = false

/-- The shape of the tail appended at reassembly: empty, or `_(` + a
year-shaped group + `)`. -/
def TailGood (tl : List Char) : Prop :=
  tl = [] ∨ ∃ a b c d, tl = ['_', '(', a, b, c, d, ')'] ∧ yearShape a b c d = true

/-! ## Character-level helper lemmas -/

theorem nodelim_ne {c : Char} (h : isDelim c = false) :
    c ≠ '.' ∧ c ≠ '-' ∧ c ≠ '_' ∧ c ≠ ' ' := by
  unfold isDelim at h
  simp only [Bool.or_eq_false_iff, decide_eq_false_iff_not] at h
  exact ⟨h.1.1.1, h.1.1.2, h.1.2, h.2⟩

theorem nobracket_ne {c : Char} (h : isBracketChar c = false) :
    c ≠ '[' ∧ c ≠ ']' ∧ c ≠ '{' ∧ c ≠ '}' ∧ c ≠ '(' ∧ c ≠ ')' := by
  unfold isBracketChar at h
  simp only [Bool.or_eq_false_iff, decide_eq_false_iff_not] at h
  exact ⟨h.1.1.1.1.1, h.1.1.1.1.2, h.1.1.1.2, h.1.1.2, h.1.2, h.2⟩

theorem digit_ne {c : Char} (h : c.isDigit = true) :
    c ≠ '_' ∧ c ≠ '(' ∧ c ≠ ')' ∧ c ≠ '.' := by
  refine ⟨?_, ?_, ?_, ?_⟩ <;> (rintro rfl; revert h; decide)

theorem yearShape_chars {a b c d : Char} (h : yearShape a b c d = true) :
    (a = '1' ∨ a = '2') ∧ (b = '9' ∨ b = '0') ∧
      c.isDigit = true ∧ d.isDigit = true := by
  unfold yearShape at h
  simp only [Bool.and_eq_true, Bool.or_eq_true, decide_eq_true_eq] at h
  refine ⟨?_, ?_, h.1.2, h.2⟩
  · rcases h.1.1 with ⟨h1, _⟩ | ⟨h1, _⟩
    · exact Or.inl h1
    · exact Or.inr h1
  · rcases h.1.1 with ⟨_, h2⟩ | ⟨_, h2⟩
    · exact Or.inl h2
    · exact Or.inr h2

/-! ## `splitAtLastDot` and `splitExt` -/

theorem sald_eq_none {l : List Char} (h : '.' ∉ l) : splitAtLastDot l = none := by
  induction l with
  | nil => rfl
  | cons c rest ih =>
    have hc : ¬ c = '.' := fun hh => h (by simp [hh])
    have hr : '.' ∉ rest := fun hh => h (List.mem_cons_of_mem _ hh)
    simp [splitAtLastDot, ih hr, hc]

theorem sald_none_sound {l : List Char} (h : splitAtLastDot l = none) : '.' ∉ l := by
  induction l with
  | nil => simp
  | cons c rest ih =>
    simp only [splitAtLastDot] at h
    cases hr : splitAtLastDot rest with
    | some pp => rw [hr] at h; simp at h
    | none =>
      rw [hr] at h
      by_cases hc : c = '.'
      · simp [hc] at h
      · intro hm
        rcases List.mem_cons.mp hm with h1 | h1
        · exact hc h1.symm
        · exact ih hr h1

theorem sald_append {pre post : List Char} (h : '.' ∉ post) :
    splitAtLastDot (pre ++ '.' :: post) = some (pre, post) := by
  induction pre with
  | nil => simp [splitAtLastDot, sald_eq_none h]
  | cons c pre ih => simp [splitAtLastDot, ih]

theorem sald_sound {l pre post : List Char}
    (h : splitAtLastDot l = some (pre, post)) :
    l = pre ++ '.' :: post ∧ '.' ∉ post := by
  induction l generalizing pre post with
  | nil => simp [splitAtLastDot] at h
  | cons c rest ih =>
    simp only [splitAtLastDot] at h
    cases hr : splitAtLastDot rest with
    | some pp =>
      obtain ⟨p1, p2⟩ := pp
      rw [hr] at h
      simp only [Option.some.injEq, Prod.mk.injEq] at h
      obtain ⟨h1, h2⟩ := h
      obtain ⟨hrest, hpost⟩ := ih hr
      subst h2
      rw [← h1]
      exact ⟨by rw [hrest]; simp, hpost⟩
    | none =>
      rw [hr] at h
      by_cases hc : c = '.'
      · rw [if_pos hc] at h
        simp only [Option.some.injEq, Prod.mk.injEq] at h
        obtain ⟨h1, h2⟩ := h
        subst h2
        rw [← h1, hc]
        exact ⟨by simp, sald_none_sound hr⟩
      · simp [hc] at h

theorem splitExt_join (name : List Char) :
    (splitExt name).1 ++ (splitExt name).2 = name := by
  unfold splitExt
  cases h : splitAtLastDot name with
  | none => simp
  | some pp =>
    obtain ⟨pre, post⟩ := pp
    have hname := (sald_sound h).1
    by_cases h1 : pre ≠ [] ∧ post ≠ []
    · simp only [if_pos h1]
      exact hname.symm
    · simp [h1]

theorem splitExt_suffix_shape (name : List Char) :
    (splitExt name).2 = [] ∨
      ∃ e, (splitExt name).2 = '.' :: e ∧ e ≠ [] ∧ '.' ∉ e := by
  unfold splitExt
  cases h : splitAtLastDot name with
  | none => simp
  | some pp =>
    obtain ⟨pre, post⟩ := pp
    by_cases h1 : pre ≠ [] ∧ post ≠ []
    · simp only [if_pos h1]
      exact Or.inr ⟨post, rfl, h1.2, (sald_sound h).2⟩
    · simp [h1]

theorem splitExt_concat {s sfx : List Char} (hs : s ≠ []) (hd : '.' ∉ s)
    (hsfx : sfx = [] ∨ ∃ e, sfx = '.' :: e ∧ e ≠ [] ∧ '.' ∉ e) :
    splitExt (s ++ sfx) = (s, sfx) := by
  rcases hsfx with rfl | ⟨e, rfl, he, hde⟩
  · unfold splitExt
    rw [List.append_nil, sald_eq_none hd]
  · unfold splitExt
    rw [sald_append hde]
    simp [hs, he]

/-! ## `yearAtHead`, `findParenYear`, `extractYear` -/

theorem yearAtHead_none_of_ne {c : Char} {rest : List Char} (h : c ≠ '(') :
    yearAtHead (c :: rest) = none := by
  unfold yearAtHead
  rcases rest with _ | ⟨a, _ | ⟨b, _ | ⟨cc, _ | ⟨d, _ | ⟨q, tail⟩⟩⟩⟩⟩ <;>
    simp [h]

theorem yearAtHead_some {s y tail : List Char}
    (h : yearAtHead s = some (y, tail)) :
    ∃ a b c d, y = [a, b, c, d] ∧ yearShape a b c d = true ∧
      s = '(' :: a :: b :: c :: d :: ')' :: tail := by
  unfold yearAtHead at h
  rcases s with _ | ⟨p, _ | ⟨a, _ | ⟨b, _ | ⟨cc, _ | ⟨d, _ | ⟨q, t⟩⟩⟩⟩⟩⟩ <;>
    simp only [reduceCtorEq] at h
  by_cases hcond : (p = '(' && q = ')' && yearShape a b cc d) = true
  · rw [if_pos hcond] at h
    simp only [Option.some.injEq, Prod.mk.injEq] at h
    simp only [Bool.and_eq_true, decide_eq_true_eq] at hcond
    obtain ⟨⟨hp, hq⟩, hsh⟩ := hcond
    exact ⟨a, b, cc, d, h.1.symm, hsh, by rw [hp, hq, h.2]⟩
  · rw [if_neg hcond] at h
    simp at h

theorem findParenYear_shape {s pre y post : List Char}
    (h : findParenYear s = some (pre, y, post)) : isYearTok y = true := by
  induction s generalizing pre y post with
  | nil => simp [findParenYear] at h
  | cons c rest ih =>
    simp only [findParenYear] at h
    cases hy : yearAtHead (c :: rest) with
    | some p =>
      obtain ⟨y0, tail⟩ := p
      rw [hy] at h
      simp only [Option.some.injEq, Prod.mk.injEq] at h
      obtain ⟨a, b, cc, d, hy0, hsh, _⟩ := yearAtHead_some hy
      rw [← h.2.1, hy0]
      simpa [isYearTok] using hsh
    | none =>
      rw [hy] at h
      cases hr : findParenYear rest with
      | some ppp =>
        obtain ⟨p1, y1, p3⟩ := ppp
        rw [hr] at h
        simp only [Option.some.injEq, Prod.mk.injEq] at h
        rw [← h.2.1]
        exact ih hr
      | none => rw [hr] at h; simp at h

theorem findParenYear_none {s : List Char} (h : '(' ∉ s) :
    findParenYear s = none := by
  induction s with
  | nil => rfl
  | cons c rest ih =>
    have hc : c ≠ '(' := fun hh => h (by simp [hh])
    have hr : '(' ∉ rest := fun hh => h (List.mem_cons_of_mem _ hh)
    simp [findParenYear, yearAtHead_none_of_ne hc, ih hr]

theorem extractYear_some_shape {stem y : List Char}
    (h : (extractYear stem).1 = some y) : isYearTok y = true := by
  unfold extractYear at h
  cases hf : findParenYear stem with
  | none => rw [hf] at h; simp at h
  | some p =>
    obtain ⟨pre, yy, post⟩ := p
    rw [hf] at h
    simp only [Option.some.injEq] at h
    rw [← h]
    exact findParenYear_shape hf

theorem extractYear_of_no_paren {stem : List Char} (h : '(' ∉ stem) :
    extractYear stem = (none, stem) := by
  unfold extractYear
  rw [findParenYear_none h]

/-! ## `pySplit` -/

theorem pySplitAux_mem_noDelim (s acc : List Char) :
    (∀ c ∈ acc, isDelim c = false) →
      ∀ t ∈ pySplitAux s acc, ∀ c ∈ t, isDelim c = false := by
  induction s, acc using pySplitAux.induct with
  | case1 acc =>
    intro hacc t ht x hx
    simp only [pySplitAux, List.mem_singleton] at ht
    subst ht
    exact hacc x (List.mem_reverse.mp hx)
  | case2 c acc hdel =>
    intro hacc t ht x hx
    simp only [pySplitAux, if_pos hdel, List.mem_cons, List.not_mem_nil,
      or_false] at ht
    rcases ht with rfl | rfl
    · exact hacc x (List.mem_reverse.mp hx)
    · simp at hx
  | case3 c acc hdel =>
    intro hacc t ht x hx
    simp only [pySplitAux, if_neg hdel, List.mem_singleton] at ht
    subst ht
    rcases List.mem_cons.mp (List.mem_reverse.mp hx) with rfl | hxa
    · simpa using hdel
    · exact hacc x hxa
  | case4 c c2 rest acc hdel1 hdel2 ih =>
    intro hacc t ht x hx
    simp only [pySplitAux, if_pos hdel1, if_pos hdel2] at ht
    exact ih hacc t ht x hx
  | case5 c c2 rest acc hdel1 hdel2 ih =>
    intro hacc t ht x hx
    simp only [pySplitAux, if_pos hdel1, if_neg hdel2, List.mem_cons] at ht
    rcases ht with rfl | ht
    · exact hacc x (List.mem_reverse.mp hx)
    · exact ih (by simp) t ht x hx
  | case6 c c2 rest acc hdel ih =>
    intro hacc t ht x hx
    simp only [pySplitAux, if_neg hdel] at ht
    refine ih ?_ t ht x hx
    intro z hz
    rcases List.mem_cons.mp hz with rfl | hza
    · simpa using hdel
    · exact hacc z hza

theorem pySplit_mem_noDelim {stem : List Char} :
    ∀ t ∈ pySplit stem, ∀ c ∈ t, isDelim c = false :=
  pySplitAux_mem_noDelim stem [] (by simp)

theorem pySplitAux_append {t : List Char} (ht : ∀ c ∈ t, isDelim c = false) :
    ∀ r acc, pySplitAux (t ++ r) acc = pySplitAux r (t.reverse ++ acc) := by
  induction t with
  | nil => intro r acc; simp
  | cons c t ih =>
    intro r acc
    have hc : isDelim c = false := ht c (by simp)
    have ht2 : ∀ x ∈ t, isDelim x = false := fun x hx => ht x (by simp [hx])
    cases htr : t ++ r with
    | nil =>
      obtain ⟨ht0, hr0⟩ := List.append_eq_nil.mp htr
      subst ht0; subst hr0
      simp [pySplitAux, hc]
    | cons c2 rest =>
      have hshow : (c :: t) ++ r = c :: c2 :: rest := by
        rw [List.cons_append, htr]
      rw [hshow]
      have : pySplitAux (c :: c2 :: rest) acc = pySplitAux (c2 :: rest) (c :: acc) := by
        simp [pySplitAux, hc]
      rw [this, ← htr, ih ht2 r (c :: acc)]
      simp

theorem joinUnderscore_cons_cons (p q : List Char) (qs : List (List Char)) :
    joinUnderscore (p :: q :: qs) = p ++ '_' :: joinUnderscore (q :: qs) := rfl

theorem joinUnderscore_head_exists (q : List Char) (qs : List (List Char)) :
    ∃ X, joinUnderscore (q :: qs) = q ++ X := by
  cases qs with
  | nil => exact ⟨[], by simp [joinUnderscore]⟩
  | cons q2 qs2 => exact ⟨'_' :: joinUnderscore (q2 :: qs2), rfl⟩

theorem pySplit_join (ps : List (List Char))
    (hgood : ∀ t ∈ ps, t ≠ [] ∧ ∀ c ∈ t, isDelim c = false) (hne : ps ≠ []) :
    pySplit (joinUnderscore ps) = ps := by
  induction ps with
  | nil => exact absurd rfl hne
  | cons p ps ih =>
    obtain ⟨hp0, hpc⟩ := hgood p (by simp)
    cases ps with
    | nil =>
      show pySplitAux (joinUnderscore [p]) [] = [p]
      have hj : joinUnderscore [p] = p ++ [] := by simp [joinUnderscore]
      rw [hj, pySplitAux_append hpc [] []]
      simp [pySplitAux]
    | cons q qs =>
      obtain ⟨hq0, hqc⟩ := hgood q (by simp)
      show pySplitAux (joinUnderscore (p :: q :: qs)) [] = p :: q :: qs
      rw [joinUnderscore_cons_cons, pySplitAux_append hpc]
      obtain ⟨X, hX⟩ := joinUnderscore_head_exists q qs
      cases q with
      | nil => exact absurd rfl hq0
      | cons hq q1 =>
        rw [hX]
        have hhq : isDelim hq = false := hqc hq (by simp)
        have hstep : pySplitAux ('_' :: ((hq :: q1) ++ X)) (p.reverse ++ []) =
            (p.reverse ++ []).reverse :: pySplitAux ((hq :: q1) ++ X) [] := by
          simp only [List.cons_append]
          show pySplitAux ('_' :: hq :: (q1 ++ X)) (p.reverse ++ []) = _
          simp only [pySplitAux]
          rw [if_pos (show isDelim '_' = true by decide),
            if_neg (show ¬ isDelim hq = true by simp [hhq])]
        rw [hstep, ← hX]
        have hrec := ih (fun t htm => hgood t (by simp [htm])) (by simp)
        rw [show pySplitAux (joinUnderscore ((hq :: q1) :: qs)) [] =
          pySplit (joinUnderscore ((hq :: q1) :: qs)) from rfl, hrec]
        simp

/-! ## `classifyTokens` -/

theorem classifyTokens_mem {ts : List (List Char)} :
    ∀ {y : Option (List Char)}, ∀ t ∈ (classifyTokens y ts).2,
      t ∈ ts ∧ t ≠ [] ∧ is_unwanted t = false ∧
        t.any isBracketChar = false ∧ t ≠ ['1'] := by
  induction ts with
  | nil => intro y t ht; simp [classifyTokens] at ht
  | cons tok rest ih =>
    intro y t ht
    simp only [classifyTokens] at ht
    by_cases h1 : tok = []
    · rw [if_pos h1] at ht
      obtain ⟨m, rest'⟩ := ih t ht
      exact ⟨List.mem_cons_of_mem _ m, rest'⟩
    · rw [if_neg h1] at ht
      by_cases h2 : (y.isNone && isYearTok tok) = true
      · rw [if_pos h2] at ht
        obtain ⟨m, rest'⟩ := ih t ht
        exact ⟨List.mem_cons_of_mem _ m, rest'⟩
      · rw [if_neg h2] at ht
        by_cases h3 : (is_unwanted tok || tok.any isBracketChar) = true
        · rw [if_pos h3] at ht
          obtain ⟨m, rest'⟩ := ih t ht
          exact ⟨List.mem_cons_of_mem _ m, rest'⟩
        · rw [if_neg h3] at ht
          have h3' : is_unwanted tok = false ∧ tok.any isBracketChar = false := by
            simpa [Bool.or_eq_true, not_or] using h3
          by_cases h4 : tok = ['1']
          · rw [if_pos h4] at ht
            obtain ⟨m, rest'⟩ := ih t ht
            exact ⟨List.mem_cons_of_mem _ m, rest'⟩
          · rw [if_neg h4, ite_self] at ht
            simp only [List.mem_cons] at ht
            rcases ht with rfl | ht
            · exact ⟨by simp, h1, h3'.1, h3'.2, h4⟩
            · obtain ⟨m, rest'⟩ := ih t ht
              exact ⟨List.mem_cons_of_mem _ m, rest'⟩

theorem classifyTokens_some (x : List Char) (ts : List (List Char)) :
    (classifyTokens (some x) ts).1 = some x := by
  induction ts with
  | nil => rfl
  | cons tok rest ih =>
    simp only [classifyTokens]
    by_cases h1 : tok = []
    · rw [if_pos h1]; exact ih
    · rw [if_neg h1]
      rw [if_neg (by simp : ¬((some x).isNone && isYearTok tok) = true)]
      by_cases h3 : (is_unwanted tok || tok.any isBracketChar) = true
      · rw [if_pos h3]; exact ih
      · rw [if_neg h3]
        by_cases h4 : tok = ['1']
        · rw [if_pos h4]; exact ih
        · rw [if_neg h4, ite_self]; exact ih

theorem classifyTokens_yearNone {y : Option (List Char)} {ts : List (List Char)}
    (h : (classifyTokens y ts).1 = none) : y = none := by
  cases y with
  | none => rfl
  | some x => rw [classifyTokens_some] at h; cases h

theorem classifyTokens_some_shape {ts : List (List Char)} :
    ∀ {y : Option (List Char)} {y0 : List Char},
      (classifyTokens y ts).1 = some y0 → y = some y0 ∨ isYearTok y0 = true := by
  induction ts with
  | nil => intro y y0 h; exact Or.inl h
  | cons tok rest ih =>
    intro y y0 h
    simp only [classifyTokens] at h
    by_cases h1 : tok = []
    · rw [if_pos h1] at h; exact ih h
    · rw [if_neg h1] at h
      by_cases h2 : (y.isNone && isYearTok tok) = true
      · rw [if_pos h2] at h
        rw [classifyTokens_some] at h
        have h2' := (Bool.and_eq_true _ _).mp h2
        right
        rw [show y0 = tok from by injection h with h; exact h.symm]
        exact h2'.2
      · rw [if_neg h2] at h
        by_cases h3 : (is_unwanted tok || tok.any isBracketChar) = true
        · rw [if_pos h3] at h; exact ih h
        · rw [if_neg h3] at h
          by_cases h4 : tok = ['1']
          · rw [if_pos h4] at h; exact ih h
          · rw [if_neg h4, ite_self] at h; exact ih h

theorem classifyTokens_noYearTok {ts : List (List Char)}
    (h : (classifyTokens none ts).1 = none) :
    ∀ t ∈ (classifyTokens none ts).2, isYearTok t = false := by
  induction ts with
  | nil => simp [classifyTokens]
  | cons tok rest ih =>
    by_cases h1 : tok = []
    · simp only [classifyTokens, if_pos h1] at h ⊢
      exact ih h
    · by_cases h2 : isYearTok tok = true
      · exfalso
        simp only [classifyTokens, if_neg h1] at h
        rw [if_pos (by simp [h2] : ((none : Option (List Char)).isNone && isYearTok tok) = true)] at h
        rw [classifyTokens_some] at h
        cases h
      · have h2' : ((none : Option (List Char)).isNone && isYearTok tok) ≠ true := by
          simp [h2]
        by_cases h3 : (is_unwanted tok || tok.any isBracketChar) = true
        · simp only [classifyTokens, if_neg h1, if_neg h2', if_pos h3] at h ⊢
          exact ih h
        · by_cases h4 : tok = ['1']
          · simp only [classifyTokens, if_neg h1, if_neg h2', if_neg h3, if_pos h4] at h ⊢
            exact ih h
          · simp only [classifyTokens, if_neg h1, if_neg h2', if_neg h3, if_neg h4,
              ite_self] at h ⊢
            intro t ht
            rcases List.mem_cons.mp ht with rfl | ht
            · exact eq_false_of_ne_true h2
            · exact ih h t ht

theorem classifyTokens_keepAll {ts : List (List Char)}
    (h : ∀ t ∈ ts, t ≠ [] ∧ isYearTok t = false ∧ is_unwanted t = false ∧
      t.any isBracketChar = false ∧ t ≠ ['1']) :
    classifyTokens none ts = (none, ts) := by
  induction ts with
  | nil => rfl
  | cons tok rest ih =>
    obtain ⟨h1, h2, h3, h4, h5⟩ := h tok (by simp)
    have hrest := ih (fun t ht => h t (by simp [ht]))
    simp only [classifyTokens, if_neg h1]
    rw [if_neg (by simp [h2] : ¬((none : Option (List Char)).isNone && isYearTok tok) = true)]
    rw [if_neg (by simp [h3, h4] : ¬(is_unwanted tok || tok.any isBracketChar) = true)]
    rw [if_neg h5, ite_self, hrest]

/-! ## Token shape lemmas -/

theorem goodTok_chars {t : List Char} (h : GoodTok t) :
    ∀ c ∈ t, c ≠ '_' ∧ c ≠ '(' ∧ c ≠ ')' ∧ c ≠ '.' := by
  intro c hc
  obtain ⟨-, -, hall⟩ := h
  obtain ⟨hd, hb⟩ := hall c hc
  obtain ⟨h1, -, h2, -⟩ := nodelim_ne hd
  obtain ⟨-, -, -, -, h3, h4⟩ := nobracket_ne hb
  exact ⟨h2, h3, h4, h1⟩

theorem goodTok_no_underscore {t : List Char} (h : GoodTok t) : '_' ∉ t :=
  fun hm => (goodTok_chars h '_' hm).1 rfl

theorem goodTok_no_lparen {t : List Char} (h : GoodTok t) : '(' ∉ t :=
  fun hm => (goodTok_chars h '(' hm).2.1 rfl

theorem tailGood_chars {tl : List Char} (h : TailGood tl) :
    '.' ∉ tl ∧ noDouble tl = true := by
  rcases h with rfl | ⟨a, b, c, d, rfl, hsh⟩
  · exact ⟨by simp, rfl⟩
  · obtain ⟨ha, hb, hc, hd⟩ := yearShape_chars hsh
    constructor
    · have ha2 : a ≠ '.' := by rcases ha with rfl | rfl <;> decide
      have hb2 : b ≠ '.' := by rcases hb with rfl | rfl <;> decide
      have hc2 : c ≠ '.' := (digit_ne hc).2.2.2
      have hd2 : d ≠ '.' := (digit_ne hd).2.2.2
      intro hm
      simp only [List.mem_cons, List.not_mem_nil, or_false] at hm
      rcases hm with h1 | h1 | h1 | h1 | h1 | h1 | h1
      · exact absurd h1 (by decide)
      · exact absurd h1 (by decide)
      · exact ha2 h1.symm
      · exact hb2 h1.symm
      · exact hc2 h1.symm
      · exact hd2 h1.symm
      · exact absurd h1 (by decide)
    · show noDouble ['_', '(', a, b, c, d, ')'] = true
      have hcu : c ≠ '_' := (digit_ne hc).1
      have hdu : d ≠ '_' := (digit_ne hd).1
      have hau : a ≠ '_' := by rcases ha with rfl | rfl <;> decide
      have hbu : b ≠ '_' := by rcases hb with rfl | rfl <;> decide
      simp [noDouble, hau, hbu, hcu, hdu]

/-! ## `noDouble` and `collapse_underscores` -/

theorem noDouble_append_left {t r : List Char} (ht : '_' ∉ t)
    (hr : noDouble r = true) : noDouble (t ++ r) = true := by
  induction t with
  | nil => simpa
  | cons c t2 ih =>
    have hc : c ≠ '_' := fun hh => ht (by simp [hh])
    have hrec : noDouble (t2 ++ r) = true := ih fun hh => ht (by simp [hh])
    cases htr : t2 ++ r with
    | nil => rw [List.cons_append, htr]; rfl
    | cons d rest =>
      rw [List.cons_append, htr]
      rw [show noDouble (c :: d :: rest) =
        (!(c = '_' && d = '_') && noDouble (d :: rest)) from rfl]
      rw [← htr]
      simp [hc, hrec]

theorem noDouble_underscore_cons {X : List Char}
    (hX : ∀ c, X.head? = some c → c ≠ '_') (h : noDouble X = true) :
    noDouble ('_' :: X) = true := by
  cases X with
  | nil => rfl
  | cons c rest =>
    have hc := hX c rfl
    rw [show noDouble ('_' :: c :: rest) =
      (!('_' = '_' && c = '_') && noDouble (c :: rest)) from rfl]
    simp [hc, h]

theorem join_tail_head {p : List Char} (hp : p ≠ []) (ps : List (List Char))
    (tl : List Char) :
    (joinUnderscore (p :: ps) ++ tl).head? = p.head? := by
  obtain ⟨X, hX⟩ := joinUnderscore_head_exists p ps
  rw [hX]
  cases p with
  | nil => exact absurd rfl hp
  | cons c p2 => simp

theorem noDouble_join_tail (ps : List (List Char)) (hgood : ∀ t ∈ ps, GoodTok t)
    (hne : ps ≠ []) (tl : List Char) (htl : noDouble tl = true) :
    noDouble (joinUnderscore ps ++ tl) = true := by
  induction ps with
  | nil => exact absurd rfl hne
  | cons p ps ih =>
    have hp := hgood p (by simp)
    cases ps with
    | nil =>
      show noDouble (joinUnderscore [p] ++ tl) = true
      rw [show joinUnderscore [p] = p from rfl]
      exact noDouble_append_left (goodTok_no_underscore hp) htl
    | cons q qs =>
      rw [joinUnderscore_cons_cons, List.append_assoc]
      refine noDouble_append_left (goodTok_no_underscore hp) ?_
      rw [show ('_' :: joinUnderscore (q :: qs)) ++ tl =
        '_' :: (joinUnderscore (q :: qs) ++ tl) from rfl]
      refine noDouble_underscore_cons ?_ ?_
      · intro c hc
        have hq := hgood q (by simp)
        rw [join_tail_head hq.1 qs tl] at hc
        intro hcu
        subst hcu
        exact goodTok_no_underscore hq (List.mem_of_mem_head? hc)
      · exact ih (fun t ht => hgood t (by simp [ht])) (by simp)

theorem collapse_eq_self {s : List Char} (h : noDouble s = true) :
    collapse_underscores s = s := by
  induction s with
  | nil => rfl
  | cons c rest ih =>
    cases rest with
    | nil => rfl
    | cons d rest2 =>
      rw [show noDouble (c :: d :: rest2) =
        (!(c = '_' && d = '_') && noDouble (d :: rest2)) from rfl] at h
      obtain ⟨hpair, hrest⟩ := (Bool.and_eq_true _ _).mp h
      rw [show collapse_underscores (c :: d :: rest2) =
        if c = '_' && d = '_' then collapse_underscores (d :: rest2)
        else c :: collapse_underscores (d :: rest2) from rfl]
      have hcond : (c = '_' && d = '_') = false := by
        cases hcd : (c = '_' && d = '_')
        · rfl
        · rw [hcd] at hpair; exact absurd hpair (by decide)
      rw [if_neg (by simp [hcond]), ih hrest]

/-! ## `stripUnderscore` -/

theorem stripUnderscore_eq_self {s : List Char}
    (h1 : ∀ c, s.head? = some c → c ≠ '_')
    (h2 : ∀ c, s.getLast? = some c → c ≠ '_') :
    stripUnderscore s = s := by
  unfold stripUnderscore
  have hd : s.dropWhile (fun c => c = '_') = s := by
    cases s with
    | nil => rfl
    | cons c rest =>
      rw [List.dropWhile_cons, if_neg (by simp [h1 c rfl])]
  rw [hd]
  have hg : s.reverse.dropWhile (fun c => c = '_') = s.reverse := by
    cases hs : s.reverse with
    | nil => rfl
    | cons c rest =>
      have hlast : s.getLast? = some c := by
        rw [← List.head?_reverse, hs]; rfl
      rw [List.dropWhile_cons, if_neg (by simp [h2 c hlast])]
  rw [hg, List.reverse_reverse]

/-! ## Joined-stem structural facts -/

theorem mem_of_getLast?_eq {α : Type} {l : List α} {x : α}
    (h : l.getLast? = some x) : x ∈ l := by
  obtain ⟨hne, hx⟩ := List.mem_getLast?_eq_getLast (Option.mem_def.mpr h)
  rw [hx]
  exact List.getLast_mem hne

theorem join_ne_nil {ps : List (List Char)} (h : ∀ t ∈ ps, GoodTok t)
    (hne : ps ≠ []) : joinUnderscore ps ≠ [] := by
  cases ps with
  | nil => exact absurd rfl hne
  | cons p ps =>
    obtain ⟨X, hX⟩ := joinUnderscore_head_exists p ps
    rw [hX]
    have hp0 := (h p (by simp)).1
    cases p with
    | nil => exact absurd rfl hp0
    | cons c p2 => simp

theorem join_chars (ps : List (List Char)) :
    ∀ c ∈ joinUnderscore ps, c = '_' ∨ ∃ t ∈ ps, c ∈ t := by
  induction ps with
  | nil => simp [joinUnderscore]
  | cons p ps ih =>
    cases ps with
    | nil =>
      intro c hc
      exact Or.inr ⟨p, by simp, hc⟩
    | cons q qs =>
      rw [joinUnderscore_cons_cons]
      intro c hc
      rcases List.mem_append.mp hc with hcp | hcr
      · exact Or.inr ⟨p, by simp, hcp⟩
      · rcases List.mem_cons.mp hcr with rfl | hcj
        · exact Or.inl rfl
        · rcases ih c hcj with h1 | ⟨t, ht, hct⟩
          · exact Or.inl h1
          · exact Or.inr ⟨t, by simp [ht], hct⟩

theorem joined_no_dot {ps : List (List Char)} (h : ∀ t ∈ ps, GoodTok t)
    {tl : List Char} (htl : '.' ∉ tl) :
    '.' ∉ joinUnderscore ps ++ tl := by
  intro hm
  rcases List.mem_append.mp hm with hm | hm
  · rcases join_chars ps '.' hm with h1 | ⟨t, ht, hct⟩
    · exact absurd h1 (by decide)
    · exact (goodTok_chars (h t ht) '.' hct).2.2.2 rfl
  · exact htl hm

theorem joined_no_lparen {ps : List (List Char)} (h : ∀ t ∈ ps, GoodTok t) :
    '(' ∉ joinUnderscore ps := by
  intro hm
  rcases join_chars ps '(' hm with h1 | ⟨t, ht, hct⟩
  · exact absurd h1 (by decide)
  · exact (goodTok_chars (h t ht) '(' hct).2.1 rfl

theorem joined_getLast {ps : List (List Char)} (h : ∀ t ∈ ps, GoodTok t)
    (hne : ps ≠ []) :
    ∀ c, (joinUnderscore ps).getLast? = some c → c ≠ '_' := by
  induction ps with
  | nil => exact absurd rfl hne
  | cons p ps ih =>
    cases ps with
    | nil =>
      intro c hc
      have hcm : c ∈ p := mem_of_getLast?_eq hc
      exact (goodTok_chars (h p (by simp)) c hcm).1
    | cons q qs =>
      intro c hc
      rw [joinUnderscore_cons_cons] at hc
      rw [List.getLast?_append_of_ne_nil _ (by simp)] at hc
      have hj : joinUnderscore (q :: qs) ≠ [] :=
        join_ne_nil (fun t ht => h t (by simp [ht])) (by simp)
      rw [show ('_' :: joinUnderscore (q :: qs)) = ['_'] ++ joinUnderscore (q :: qs)
        from rfl] at hc
      rw [List.getLast?_append_of_ne_nil _ hj] at hc
      exact ih (fun t ht => h t (by simp [ht])) (by simp) c hc

theorem joined_tail_getLast {ps : List (List Char)} (h : ∀ t ∈ ps, GoodTok t)
    (hne : ps ≠ []) {tl : List Char} (htl : TailGood tl) :
    ∀ c, (joinUnderscore ps ++ tl).getLast? = some c → c ≠ '_' := by
  rcases htl with rfl | ⟨a, b, cc, d, rfl, hsh⟩
  · intro c hc
    rw [List.append_nil] at hc
    exact joined_getLast h hne c hc
  · intro c hc
    rw [List.getLast?_append_of_ne_nil _ (by simp)] at hc
    simp only [List.getLast?] at hc
    simp at hc
    subst hc
    decide

/-! ## `containsDup1` over reassembled stems -/

theorem containsDup1_cons_ne {c : Char} (hc : c ≠ '_') (X : List Char) :
    containsDup1 (c :: X) = containsDup1 X := by
  rcases X with _ | ⟨d, _ | ⟨e, X3⟩⟩ <;> simp [containsDup1, hc]

theorem containsDup1_underscore_cons {d : Char} (hd : d ≠ '1') (X : List Char) :
    containsDup1 ('_' :: d :: X) = containsDup1 (d :: X) := by
  rcases X with _ | ⟨e, X2⟩ <;> simp [containsDup1, hd]

theorem containsDup1_underscore_one {e : Char} (he : e ≠ '_') (X : List Char) :
    containsDup1 ('_' :: '1' :: e :: X) = containsDup1 ('1' :: e :: X) := by
  simp [containsDup1, he]

theorem containsDup1_append_left {t : List Char} (ht : '_' ∉ t) :
    ∀ r, containsDup1 (t ++ r) = containsDup1 r := by
  induction t with
  | nil => simp
  | cons c t2 ih =>
    intro r
    have hc : c ≠ '_' := fun hh => ht (by simp [hh])
    rw [List.cons_append, containsDup1_cons_ne hc,
      ih (fun hh => ht (by simp [hh])) r]

theorem containsDup1_sep {t : List Char} (h : GoodTok t) :
    ∀ r, containsDup1 ('_' :: (t ++ r)) = containsDup1 r := by
  obtain ⟨hne, hne1, hall⟩ := h
  intro r
  cases t with
  | nil => exact absurd rfl hne
  | cons c t2 =>
    have hcu : c ≠ '_' := (nodelim_ne (hall c (by simp)).1).2.2.1
    by_cases hc1 : c = '1'
    · subst hc1
      cases t2 with
      | nil => exact absurd rfl hne1
      | cons e t3 =>
        have he : e ≠ '_' := (nodelim_ne (hall e (by simp)).1).2.2.1
        have ht3 : '_' ∉ t3 := fun hm =>
          (nodelim_ne (hall '_' (by simp [hm])).1).2.2.1 rfl
        rw [List.cons_append, List.cons_append,
          containsDup1_underscore_one he,
          containsDup1_cons_ne (by decide : ('1' : Char) ≠ '_'),
          containsDup1_cons_ne he, containsDup1_append_left ht3 r]
    · have ht2 : '_' ∉ t2 := fun hm =>
        (nodelim_ne (hall '_' (by simp [hm])).1).2.2.1 rfl
      rw [List.cons_append, containsDup1_underscore_cons hc1,
        containsDup1_cons_ne hcu, containsDup1_append_left ht2 r]

theorem containsDup1_tailGood {tl : List Char} (htl : TailGood tl) :
    containsDup1 tl = false := by
  rcases htl with rfl | ⟨a, b, c, d, rfl, hsh⟩
  · rfl
  · obtain ⟨ha, hb, hc, hd⟩ := yearShape_chars hsh
    have hu : '_' ∉ ['(', a, b, c, d, ')'] := by
      have ha2 : a ≠ '_' := by rcases ha with rfl | rfl <;> decide
      have hb2 : b ≠ '_' := by rcases hb with rfl | rfl <;> decide
      have hc2 : c ≠ '_' := (digit_ne hc).1
      have hd2 : d ≠ '_' := (digit_ne hd).1
      intro hm
      simp only [List.mem_cons, List.not_mem_nil, or_false] at hm
      rcases hm with h1 | h1 | h1 | h1 | h1 | h1
      · exact absurd h1 (by decide)
      · exact ha2 h1.symm
      · exact hb2 h1.symm
      · exact hc2 h1.symm
      · exact hd2 h1.symm
      · exact absurd h1 (by decide)
    rw [show (['_', '(', a, b, c, d, ')'] : List Char) =
      '_' :: '(' :: [a, b, c, d, ')'] from rfl]
    rw [containsDup1_underscore_cons (by decide : ('(' : Char) ≠ '1')]
    rw [show ('(' :: [a, b, c, d, ')'] : List Char) =
      ['(', a, b, c, d, ')'] ++ [] from by simp]
    rw [containsDup1_append_left hu []]
    rfl

theorem containsDup1_join_tail (ps : List (List Char))
    (h : ∀ t ∈ ps, GoodTok t) (hne : ps ≠ []) (tl : List Char) :
    containsDup1 (joinUnderscore ps ++ tl) = containsDup1 tl := by
  induction ps with
  | nil => exact absurd rfl hne
  | cons p ps ih =>
    have hpu : '_' ∉ p := goodTok_no_underscore (h p (by simp))
    cases ps with
    | nil =>
      show containsDup1 (joinUnderscore [p] ++ tl) = containsDup1 tl
      rw [show joinUnderscore [p] = p from rfl, containsDup1_append_left hpu]
    | cons q qs =>
      rw [joinUnderscore_cons_cons, List.append_assoc,
        containsDup1_append_left hpu]
      rw [show ('_' :: joinUnderscore (q :: qs)) ++ tl =
        '_' :: (joinUnderscore (q :: qs) ++ tl) from rfl]
      obtain ⟨X0, hX0⟩ := joinUnderscore_head_exists q qs
      rw [hX0, List.append_assoc, containsDup1_sep (h q (by simp))]
      have hqu : '_' ∉ q := goodTok_no_underscore (h q (by simp))
      have hrec := ih (fun t ht => h t (by simp [ht])) (by simp)
      rw [hX0, List.append_assoc, containsDup1_append_left hqu] at hrec
      exact hrec

/-! ## `subDupAux` over reassembled stems -/

theorem subDupAux_false_cons {c : Char} (hc : c ≠ '_') (X : List Char) :
    subDupAux false (c :: X) = c :: subDupAux false X := by
  rcases X with _ | ⟨d, X2⟩
  · simp [subDupAux]
  · rw [show subDupAux false (c :: d :: X2) =
      (if false && c = '1' && lookOk (d :: X2) then subDupAux false (d :: X2)
      else if c = '_' && d = '1' && lookOk X2 then c :: subDupAux false X2
      else if c = '_' && d = '1' then c :: d :: subDupAux false X2
      else c :: subDupAux false (d :: X2)) from rfl]
    simp [hc]

theorem subDupAux_underscore_cons {b : Bool} {d : Char} (hd : d ≠ '1')
    (X : List Char) :
    subDupAux b ('_' :: d :: X) = '_' :: subDupAux false (d :: X) := by
  rw [show subDupAux b ('_' :: d :: X) =
    (if b && '_' = '1' && lookOk (d :: X) then subDupAux false (d :: X)
    else if '_' = '_' && d = '1' && lookOk X then '_' :: subDupAux false X
    else if '_' = '_' && d = '1' then '_' :: d :: subDupAux false X
    else '_' :: subDupAux false (d :: X)) from rfl]
  simp [hd]

theorem subDupAux_underscore_one {b : Bool} {e : Char} (he1 : e ≠ '_')
    (he2 : e ≠ '(') (X : List Char) :
    subDupAux b ('_' :: '1' :: e :: X) = '_' :: '1' :: subDupAux false (e :: X) := by
  rw [show subDupAux b ('_' :: '1' :: e :: X) =
    (if b && '_' = '1' && lookOk ('1' :: e :: X) then subDupAux false ('1' :: e :: X)
    else if '_' = '_' && '1' = '1' && lookOk (e :: X) then '_' :: subDupAux false (e :: X)
    else if '_' = '_' && '1' = '1' then '_' :: '1' :: subDupAux false (e :: X)
    else '_' :: subDupAux false ('1' :: e :: X)) from rfl]
  simp [lookOk, he1, he2]

theorem subDupAux_false_append {t : List Char} (ht : '_' ∉ t) :
    ∀ r, subDupAux false (t ++ r) = t ++ subDupAux false r := by
  induction t with
  | nil => simp
  | cons c t2 ih =>
    intro r
    have hc : c ≠ '_' := fun hh => ht (by simp [hh])
    rw [List.cons_append, subDupAux_false_cons hc,
      ih (fun hh => ht (by simp [hh])) r, List.cons_append]

theorem subDupAux_true_token {t : List Char} (h : GoodTok t) :
    ∀ r, subDupAux true (t ++ r) = t ++ subDupAux false r := by
  obtain ⟨hne, hne1, hall⟩ := h
  intro r
  cases t with
  | nil => exact absurd rfl hne
  | cons c t2 =>
    have hcu : c ≠ '_' := (nodelim_ne (hall c (by simp)).1).2.2.1
    have ht2 : '_' ∉ t2 := fun hm =>
      (nodelim_ne (hall '_' (by simp [hm])).1).2.2.1 rfl
    by_cases hc1 : c = '1'
    · subst hc1
      cases t2 with
      | nil => exact absurd rfl hne1
      | cons e t3 =>
        have he1 : e ≠ '_' := (nodelim_ne (hall e (by simp)).1).2.2.1
        have he2 : e ≠ '(' := (nobracket_ne (hall e (by simp)).2).2.2.2.2.1
        have ht3 : '_' ∉ t3 := fun hm =>
          (nodelim_ne (hall '_' (by simp [hm])).1).2.2.1 rfl
        rw [List.cons_append, List.cons_append]
        rw [show subDupAux true ('1' :: e :: (t3 ++ r)) =
          (if true && '1' = '1' && lookOk (e :: (t3 ++ r)) then
            subDupAux false (e :: (t3 ++ r))
          else if '1' = '_' && e = '1' && lookOk (t3 ++ r) then
            '1' :: subDupAux false (t3 ++ r)
          else if '1' = '_' && e = '1' then
            '1' :: e :: subDupAux false (t3 ++ r)
          else '1' :: subDupAux false (e :: (t3 ++ r))) from rfl]
        rw [if_neg (by simp [lookOk, he1, he2]), if_neg (by simp),
          if_neg (by simp), subDupAux_false_cons he1,
          subDupAux_false_append ht3 r]
        simp
    · cases t2 with
      | nil =>
        rcases r with _ | ⟨d, r2⟩
        · simp [subDupAux, hc1]
        · rw [List.cons_append, List.nil_append]
          rw [show subDupAux true (c :: d :: r2) =
            (if true && c = '1' && lookOk (d :: r2) then subDupAux false (d :: r2)
            else if c = '_' && d = '1' && lookOk r2 then c :: subDupAux false r2
            else if c = '_' && d = '1' then c :: d :: subDupAux false r2
            else c :: subDupAux false (d :: r2)) from rfl]
          rw [if_neg (by simp [hc1]), if_neg (by simp [hcu]),
            if_neg (by simp [hcu])]
          simp
      | cons e t3 =>
        rw [List.cons_append, List.cons_append]
        have he : e ≠ '_' := (nodelim_ne (hall e (by simp)).1).2.2.1
        have ht3 : '_' ∉ t3 := fun hm => ht2 (by simp [hm])
        rw [show subDupAux true (c :: e :: (t3 ++ r)) =
          (if true && c = '1' && lookOk (e :: (t3 ++ r)) then
            subDupAux false (e :: (t3 ++ r))
          else if c = '_' && e = '1' && lookOk (t3 ++ r) then
            c :: subDupAux false (t3 ++ r)
          else if c = '_' && e = '1' then
            c :: e :: subDupAux false (t3 ++ r)
          else c :: subDupAux false (e :: (t3 ++ r))) from rfl]
        rw [if_neg (by simp [hc1]), if_neg (by simp [hcu]),
          if_neg (by simp [hcu]), subDupAux_false_cons he,
          subDupAux_false_append ht3 r]
        simp

theorem subDupAux_false_sep {t : List Char} (h : GoodTok t) :
    ∀ r, subDupAux false ('_' :: (t ++ r)) = '_' :: (t ++ subDupAux false r) := by
  obtain ⟨hne, hne1, hall⟩ := h
  intro r
  cases t with
  | nil => exact absurd rfl hne
  | cons c t2 =>
    have ht2 : '_' ∉ t2 := fun hm =>
      (nodelim_ne (hall '_' (by simp [hm])).1).2.2.1 rfl
    by_cases hc1 : c = '1'
    · subst hc1
      cases t2 with
      | nil => exact absurd rfl hne1
      | cons e t3 =>
        have he1 : e ≠ '_' := (nodelim_ne (hall e (by simp)).1).2.2.1
        have he2 : e ≠ '(' := (nobracket_ne (hall e (by simp)).2).2.2.2.2.1
        have ht3 : '_' ∉ t3 := fun hm =>
          (nodelim_ne (hall '_' (by simp [hm])).1).2.2.1 rfl
        rw [List.cons_append, List.cons_append,
          subDupAux_underscore_one he1 he2, subDupAux_false_cons he1,
          subDupAux_false_append ht3 r]
        simp
    · have hcu : c ≠ '_' := (nodelim_ne (hall c (by simp)).1).2.2.1
      rw [List.cons_append, subDupAux_underscore_cons hc1,
        subDupAux_false_cons hcu, subDupAux_false_append ht2 r]
      simp

theorem subDupAux_false_tailGood {tl : List Char} (htl : TailGood tl) :
    subDupAux false tl = tl := by
  rcases htl with rfl | ⟨a, b, c, d, rfl, hsh⟩
  · rfl
  · obtain ⟨ha, hb, hc, hd⟩ := yearShape_chars hsh
    have hu : '_' ∉ ['(', a, b, c, d, ')'] := by
      have ha2 : a ≠ '_' := by rcases ha with rfl | rfl <;> decide
      have hb2 : b ≠ '_' := by rcases hb with rfl | rfl <;> decide
      have hc2 : c ≠ '_' := (digit_ne hc).1
      have hd2 : d ≠ '_' := (digit_ne hd).1
      intro hm
      simp only [List.mem_cons, List.not_mem_nil, or_false] at hm
      rcases hm with h1 | h1 | h1 | h1 | h1 | h1
      · exact absurd h1 (by decide)
      · exact ha2 h1.symm
      · exact hb2 h1.symm
      · exact hc2 h1.symm
      · exact hd2 h1.symm
      · exact absurd h1 (by decide)
    rw [show (['_', '(', a, b, c, d, ')'] : List Char) =
      '_' :: '(' :: [a, b, c, d, ')'] from rfl]
    rw [subDupAux_underscore_cons (by decide : ('(' : Char) ≠ '1')]
    rw [show ('(' :: [a, b, c, d, ')'] : List Char) =
      ['(', a, b, c, d, ')'] ++ [] from by simp]
    rw [subDupAux_false_append hu []]
    simp [subDupAux]

theorem subDupAux_false_join_tail (ps : List (List Char))
    (h : ∀ t ∈ ps, GoodTok t) (hne : ps ≠ []) (tl : List Char)
    (htl : TailGood tl) :
    subDupAux false ('_' :: (joinUnderscore ps ++ tl)) =
      '_' :: (joinUnderscore ps ++ tl) := by
  induction ps with
  | nil => exact absurd rfl hne
  | cons p ps ih =>
    cases ps with
    | nil =>
      show subDupAux false ('_' :: (joinUnderscore [p] ++ tl)) = _
      rw [show joinUnderscore [p] = p from rfl,
        subDupAux_false_sep (h p (by simp)) tl, subDupAux_false_tailGood htl]
    | cons q qs =>
      rw [joinUnderscore_cons_cons, List.append_assoc]
      rw [show ('_' :: joinUnderscore (q :: qs)) ++ tl =
        '_' :: (joinUnderscore (q :: qs) ++ tl) from rfl]
      rw [subDupAux_false_sep (h p (by simp))]
      rw [ih (fun t ht => h t (by simp [ht])) (by simp)]

theorem subDup_join_tail (ps : List (List Char)) (h : ∀ t ∈ ps, GoodTok t)
    (hne : ps ≠ []) (tl : List Char) (htl : TailGood tl) :
    subDup (joinUnderscore ps ++ tl) = joinUnderscore ps ++ tl := by
  unfold subDup
  cases ps with
  | nil => exact absurd rfl hne
  | cons p ps =>
    cases ps with
    | nil =>
      rw [show joinUnderscore [p] = p from rfl,
        subDupAux_true_token (h p (by simp)) tl, subDupAux_false_tailGood htl]
    | cons q qs =>
      rw [joinUnderscore_cons_cons, List.append_assoc]
      rw [show ('_' :: joinUnderscore (q :: qs)) ++ tl =
        '_' :: (joinUnderscore (q :: qs) ++ tl) from rfl]
      rw [subDupAux_true_token (h p (by simp))]
      rw [subDupAux_false_join_tail (q :: qs) (fun t ht => h t (by simp [ht]))
        (by simp) tl htl]

/-! ## `readyEnd` -/

theorem readyEnd_concat {t : List Char} {a b c d : Char}
    (h : yearShape a b c d = true) :
    readyEnd (t ++ ['_', '(', a, b, c, d, ')']) = true := by
  unfold readyEnd
  rw [List.reverse_append]
  rw [show (['_', '(', a, b, c, d, ')'] : List Char).reverse =
    [')', d, c, b, a, '(', '_'] from by simp]
  simp [h]

theorem readyEnd_no_lparen {s : List Char} (h : '(' ∉ s) :
    readyEnd s = false := by
  unfold readyEnd
  cases hrev : s.reverse with
  | nil => rfl
  | cons e rest =>
    rcases rest with _ | ⟨d, _ | ⟨c, _ | ⟨b, _ | ⟨a, _ | ⟨p, _ | ⟨u, rest2⟩⟩⟩⟩⟩⟩
    · rfl
    · rfl
    · rfl
    · rfl
    · rfl
    · rfl
    · have hp : p ∈ s := by
        rw [← List.mem_reverse, hrev]
        simp
      have hpne : p ≠ '(' := fun hh => h (hh ▸ hp)
      simp [hpne]

/-! ## Reassembly: the collapse, strip and cleanup passes are no-ops -/

theorem isYearTok_shape {y0 : List Char} (h : isYearTok y0 = true) :
    ∃ a b c d, y0 = [a, b, c, d] ∧ yearShape a b c d = true := by
  rcases y0 with _ | ⟨a, _ | ⟨b, _ | ⟨c, _ | ⟨d, _ | ⟨e, r⟩⟩⟩⟩⟩ <;>
    simp [isYearTok] at h
  exact ⟨a, b, c, d, rfl, h⟩

theorem yearTail_tailGood {y : Option (List Char)}
    (hy : ∀ y0, y = some y0 → isYearTok y0 = true) : TailGood (yearTail y) := by
  cases y with
  | none => exact Or.inl rfl
  | some y0 =>
    obtain ⟨a, b, c, d, rfl, hsh⟩ := isYearTok_shape (hy y0 rfl)
    exact Or.inr ⟨a, b, c, d, rfl, hsh⟩

theorem assembleStem_eq {y : Option (List Char)} {parts : List (List Char)}
    (hgood : ∀ t ∈ parts, GoodTok t) (hne : parts ≠ [])
    (hy : ∀ y0, y = some y0 → isYearTok y0 = true) :
    assembleStem y parts = joinUnderscore parts ++ yearTail y ∧
      assembleStemNoCleanup y parts = joinUnderscore parts ++ yearTail y := by
  have htg : TailGood (yearTail y) := yearTail_tailGood hy
  have hnd0 : noDouble (joinUnderscore parts) = true := by
    have h0 := noDouble_join_tail parts hgood hne [] rfl
    rwa [List.append_nil] at h0
  have htitle : collapse_underscores (joinUnderscore parts) =
      joinUnderscore parts := collapse_eq_self hnd0
  have hnd : noDouble (joinUnderscore parts ++ yearTail y) = true :=
    noDouble_join_tail parts hgood hne _ (tailGood_chars htg).2
  have hcoll : collapse_underscores (joinUnderscore parts ++ yearTail y) =
      joinUnderscore parts ++ yearTail y := collapse_eq_self hnd
  have hhead : ∀ c, (joinUnderscore parts ++ yearTail y).head? = some c →
      c ≠ '_' := by
    cases parts with
    | nil => exact absurd rfl hne
    | cons p ps =>
      intro c hc
      rw [join_tail_head (hgood p (by simp)).1 ps _] at hc
      intro hcu
      subst hcu
      exact goodTok_no_underscore (hgood p (by simp)) (List.mem_of_mem_head? hc)
  have hlast := joined_tail_getLast hgood hne htg
  have hstrip : stripUnderscore (joinUnderscore parts ++ yearTail y) =
      joinUnderscore parts ++ yearTail y := stripUnderscore_eq_self hhead hlast
  constructor
  · show stripUnderscore (collapse_underscores (subDup (stripUnderscore
      (collapse_underscores
        (collapse_underscores (joinUnderscore parts) ++ yearTail y))))) =
      joinUnderscore parts ++ yearTail y
    rw [htitle, hcoll, hstrip, subDup_join_tail parts hgood hne _ htg,
      hcoll, hstrip]
  · show stripUnderscore (collapse_underscores
      (collapse_underscores (joinUnderscore parts) ++ yearTail y)) =
      joinUnderscore parts ++ yearTail y
    rw [htitle, hcoll, hstrip]

/-! ## Facts about `classified` -/

theorem classified_parts_good (stem : List Char) :
    ∀ t ∈ (classified stem).2, GoodTok t ∧ is_unwanted t = false := by
  intro t ht
  unfold classified at ht
  obtain ⟨hmem, hne, hunw, hbr, h1⟩ := classifyTokens_mem t ht
  have hdel := pySplit_mem_noDelim t hmem
  refine ⟨⟨hne, h1, ?_⟩, hunw⟩
  intro c hc
  refine ⟨hdel c hc, ?_⟩
  by_contra hb
  have hb2 : isBracketChar c = true := by
    cases hbc : isBracketChar c
    · exact absurd hbc hb
    · rfl
  have : t.any isBracketChar = true := List.any_eq_true.mpr ⟨c, hc, hb2⟩
  rw [hbr] at this
  cases this

theorem classified_year_shape {stem y0 : List Char}
    (h : (classified stem).1 = some y0) : isYearTok y0 = true := by
  unfold classified at h
  rcases classifyTokens_some_shape h with h1 | h1
  · exact extractYear_some_shape h1
  · exact h1

theorem classified_none_noYearTok {stem : List Char}
    (h : (classified stem).1 = none) :
    ∀ t ∈ (classified stem).2, isYearTok t = false := by
  unfold classified at h ⊢
  have hy0 : (extractYear stem).1 = none := classifyTokens_yearNone h
  rw [hy0] at h ⊢
  exact classifyTokens_noYearTok h

/-! ## Branch behaviour of `build_clean_name` -/

theorem build_guard_unchanged {name : List Char}
    (h : guardReady (splitExt name).1 = true) : build_clean_name name = name := by
  unfold build_clean_name
  simp [h]

theorem build_noparts_unchanged {name : List Char}
    (h : (classified (splitExt name).1).2 = []) :
    build_clean_name name = name := by
  unfold build_clean_name
  by_cases hg : guardReady (splitExt name).1 = true
  · simp [hg]
  · simp [hg, h]

theorem build_reassembled {name : List Char}
    (hguard : guardReady (splitExt name).1 = false)
    (hparts : (classified (splitExt name).1).2 ≠ []) :
    build_clean_name name =
      (joinUnderscore (classified (splitExt name).1).2 ++
        yearTail (classified (splitExt name).1).1) ++ (splitExt name).2 := by
  have hgood : ∀ t ∈ (classified (splitExt name).1).2, GoodTok t :=
    fun t ht => (classified_parts_good _ t ht).1
  have hy : ∀ y0, (classified (splitExt name).1).1 = some y0 →
      isYearTok y0 = true := fun y0 h => classified_year_shape h
  show (if guardReady (splitExt name).1 = true then name
    else if (classified (splitExt name).1).2 = [] then name
    else assembleStem (classified (splitExt name).1).1
      (classified (splitExt name).1).2 ++ (splitExt name).2) = _
  rw [hguard, if_neg (by simp), if_neg hparts,
    (assembleStem_eq hgood hparts hy).1]

theorem build_concat_eq {A sfx : List Char} (hA : A ≠ []) (hdot : '.' ∉ A)
    (hsfx : sfx = [] ∨ ∃ e, sfx = '.' :: e ∧ e ≠ [] ∧ '.' ∉ e) :
    build_clean_name (A ++ sfx) =
      if guardReady A = true then A ++ sfx
      else if (classified A).2 = [] then A ++ sfx
      else assembleStem (classified A).1 (classified A).2 ++ sfx := by
  show (if guardReady (splitExt (A ++ sfx)).1 = true then A ++ sfx
    else if (classified (splitExt (A ++ sfx)).1).2 = [] then A ++ sfx
    else assembleStem (classified (splitExt (A ++ sfx)).1).1
      (classified (splitExt (A ++ sfx)).1).2 ++ (splitExt (A ++ sfx)).2) = _
  rw [splitExt_concat hA hdot hsfx]

/-! ## Auxiliary boolean and character lemmas -/

theorem bool_eq_false {b : Bool} (h : ¬ b = true) : b = false := by
  cases b
  · rfl
  · exact absurd rfl h

theorem goodTok_any_bracket {t : List Char} (h : GoodTok t) :
    t.any isBracketChar = false := by
  cases hany : t.any isBracketChar
  · rfl
  · obtain ⟨c, hc, hbc⟩ := List.any_eq_true.mp hany
    rw [(h.2.2 c hc).2] at hbc
    cases hbc

theorem toLower_digit {c : Char} (h : c.isDigit = true) : c.toLower = c := by
  unfold Char.toLower
  rw [if_neg]
  intro hcond
  obtain ⟨h1, h2⟩ := hcond
  unfold Char.isDigit at h
  simp only [Bool.and_eq_true, decide_eq_true_eq] at h
  have hle : c.val.toNat ≤ 57 :=
    UInt32.toNat_le_of_le (by norm_num [UInt32.size]) h.2
  have h1n : c.val.toNat ≥ 65 := h1
  omega

theorem pyLower_all_digit {t : List Char} (h : t.all Char.isDigit = true) :
    pyLower t = t := by
  unfold pyLower
  induction t with
  | nil => rfl
  | cons c rest ih =>
    simp only [List.all_cons, Bool.and_eq_true] at h
    rw [List.map_cons, toLower_digit h.1, ih h.2]

theorem all_digit_not_unwanted {t : List Char} (h : t.all Char.isDigit = true) :
    is_unwanted t = false := by
  cases hu : is_unwanted t
  · rfl
  · exfalso
    unfold is_unwanted at hu
    have hm : pyLower t ∈ _UNWANTED_EQUAL := by simpa using hu
    rw [pyLower_all_digit h] at hm
    have hw : ∀ w ∈ _UNWANTED_EQUAL, w.all Char.isDigit = false := by decide
    have hf := hw t hm
    rw [h] at hf
    cases hf

theorem all_digit_no_bracket {t : List Char} (h : t.all Char.isDigit = true) :
    t.any isBracketChar = false := by
  cases ha : t.any isBracketChar
  · rfl
  · obtain ⟨c, hc, hbc⟩ := List.any_eq_true.mp ha
    have hd : c.isDigit = true := by
      have := List.all_eq_true.mp h c hc
      simpa using this
    simp only [isBracketChar, Bool.or_eq_true, decide_eq_true_eq] at hbc
    rcases hbc with ((((rfl | rfl) | rfl) | rfl) | rfl) | rfl <;>
      exact absurd hd (by decide)

theorem isYearTok_false_of_short {t : List Char} (h : t.length < 4) :
    isYearTok t = false := by
  cases hyt : isYearTok t
  · rfl
  · obtain ⟨a, b, c, d, rfl, -⟩ := isYearTok_shape hyt
    simp at h

theorem joined_getLast_mem {ps : List (List Char)} (h : ∀ t ∈ ps, GoodTok t)
    (hne : ps ≠ []) :
    ∀ c, (joinUnderscore ps).getLast? = some c → ∃ t ∈ ps, c ∈ t := by
  induction ps with
  | nil => exact absurd rfl hne
  | cons p ps ih =>
    cases ps with
    | nil =>
      intro c hc
      exact ⟨p, by simp, mem_of_getLast?_eq hc⟩
    | cons q qs =>
      intro c hc
      rw [joinUnderscore_cons_cons] at hc
      rw [List.getLast?_append_of_ne_nil _ (by simp)] at hc
      have hj : joinUnderscore (q :: qs) ≠ [] :=
        join_ne_nil (fun t ht => h t (by simp [ht])) (by simp)
      rw [show ('_' :: joinUnderscore (q :: qs)) =
        ['_'] ++ joinUnderscore (q :: qs) from rfl,
        List.getLast?_append_of_ne_nil _ hj] at hc
      obtain ⟨t, ht, hct⟩ := ih (fun t ht => h t (by simp [ht])) (by simp) c hc
      exact ⟨t, by simp [ht], hct⟩

/-! ## Running `build_clean_name` on its own output -/

theorem build_second_run {y : Option (List Char)} {parts : List (List Char)}
    {sfx : List Char}
    (hgood : ∀ t ∈ parts, GoodTok t) (hne : parts ≠ [])
    (hysh : ∀ y0, y = some y0 → isYearTok y0 = true)
    (hnoyear : y = none → ∀ t ∈ parts, isYearTok t = false)
    (hunw : ∀ t ∈ parts, is_unwanted t = false)
    (hsfx : sfx = [] ∨ ∃ e, sfx = '.' :: e ∧ e ≠ [] ∧ '.' ∉ e) :
    build_clean_name ((joinUnderscore parts ++ yearTail y) ++ sfx) =
      (joinUnderscore parts ++ yearTail y) ++ sfx := by
  have htg : TailGood (yearTail y) := yearTail_tailGood hysh
  have hjne : joinUnderscore parts ≠ [] := join_ne_nil hgood hne
  have hAne : joinUnderscore parts ++ yearTail y ≠ [] := fun h0 =>
    hjne (List.append_eq_nil.mp h0).1
  have hAdot : '.' ∉ joinUnderscore parts ++ yearTail y :=
    joined_no_dot hgood (tailGood_chars htg).1
  rw [build_concat_eq hAne hAdot hsfx]
  cases y with
  | some y0 =>
    obtain ⟨a, b, c, d, hy0, hsh⟩ := isYearTok_shape (hysh y0 rfl)
    subst hy0
    have hready : readyEnd (joinUnderscore parts ++ yearTail (some [a, b, c, d]))
        = true := by
      show readyEnd (joinUnderscore parts ++ ['_', '(', a, b, c, d, ')']) = true
      exact readyEnd_concat hsh
    have hdup : containsDup1 (joinUnderscore parts ++ yearTail (some [a, b, c, d]))
        = false := by
      rw [containsDup1_join_tail parts hgood hne]
      exact containsDup1_tailGood htg
    have hg : guardReady (joinUnderscore parts ++ yearTail (some [a, b, c, d]))
        = true := by
      unfold guardReady
      rw [hready, hdup]
      rfl
    rw [if_pos hg]
  | none =>
    have hnp : '(' ∉ joinUnderscore parts ++ yearTail none := by
      rw [show yearTail (none : Option (List Char)) = [] from rfl, List.append_nil]
      exact joined_no_lparen hgood
    have hg : guardReady (joinUnderscore parts ++ yearTail none) = false := by
      unfold guardReady
      rw [readyEnd_no_lparen hnp]
      rfl
    rw [if_neg (by simp [hg])]
    have hA : joinUnderscore parts ++ yearTail none = joinUnderscore parts := by
      simp [yearTail]
    have hex : extractYear (joinUnderscore parts) = (none, joinUnderscore parts) :=
      extractYear_of_no_paren (joined_no_lparen hgood)
    have hps : pySplit (joinUnderscore parts) = parts := by
      refine pySplit_join parts ?_ hne
      intro t ht
      exact ⟨(hgood t ht).1, fun c hc => ((hgood t ht).2.2 c hc).1⟩
    have hclass : classified (joinUnderscore parts ++ yearTail none)
        = (none, parts) := by
      rw [hA]
      unfold classified
      rw [hex]
      show classifyTokens none (pySplit (joinUnderscore parts)) = (none, parts)
      rw [hps]
      exact classifyTokens_keepAll fun t ht =>
        ⟨(hgood t ht).1, hnoyear rfl t ht, hunw t ht,
          goodTok_any_bracket (hgood t ht), (hgood t ht).2.1⟩
    rw [hclass]
    simp only []
    rw [if_neg hne]
    rw [(assembleStem_eq hgood hne (fun y0 h0 => by cases h0)).1]

/-! ## The claims -/

/-- C1: `build_clean_name` is idempotent — applying it to its own output
yields that output unchanged, for every filename. -/
theorem C1_build_clean_name_idempotent (name : List Char) :
    build_clean_name (build_clean_name name) = build_clean_name name := by
  by_cases hg : guardReady (splitExt name).1 = true
  · rw [build_guard_unchanged hg]
    exact build_guard_unchanged hg
  · have hg2 := bool_eq_false hg
    by_cases hp : (classified (splitExt name).1).2 = []
    · rw [build_noparts_unchanged hp]
      exact build_noparts_unchanged hp
    · rw [build_reassembled hg2 hp]
      exact build_second_run
        (fun t ht => (classified_parts_good _ t ht).1) hp
        (fun y0 h0 => classified_year_shape h0)
        (fun h0 => classified_none_noYearTok h0)
        (fun t ht => (classified_parts_good _ t ht).2)
        (splitExt_suffix_shape name)

/-- C10: the final duplicate-counter cleanup pass (the substitution of
line 87 with its re-collapse and re-strip) never changes the reassembled
stem: `build_clean_name` is extensionally equal to the variant with that
pass removed. -/
theorem C10_cleanup_pass_noop (name : List Char) :
    build_clean_name name = build_clean_name_noCleanup name := by
  by_cases hg : guardReady (splitExt name).1 = true
  · rw [build_guard_unchanged hg]
    show name = (if guardReady (splitExt name).1 = true then name
      else if (classified (splitExt name).1).2 = [] then name
      else assembleStemNoCleanup (classified (splitExt name).1).1
        (classified (splitExt name).1).2 ++ (splitExt name).2)
    rw [if_pos hg]
  · have hg2 := bool_eq_false hg
    by_cases hp : (classified (splitExt name).1).2 = []
    · rw [build_noparts_unchanged hp]
      show name = (if guardReady (splitExt name).1 = true then name
        else if (classified (splitExt name).1).2 = [] then name
        else assembleStemNoCleanup (classified (splitExt name).1).1
          (classified (splitExt name).1).2 ++ (splitExt name).2)
      rw [hg2, if_neg (by simp), if_pos hp]
    · have hgood : ∀ t ∈ (classified (splitExt name).1).2, GoodTok t :=
        fun t ht => (classified_parts_good _ t ht).1
      have hysh : ∀ y0, (classified (splitExt name).1).1 = some y0 →
          isYearTok y0 = true := fun y0 h0 => classified_year_shape h0
      rw [build_reassembled hg2 hp]
      show _ = (if guardReady (splitExt name).1 = true then name
        else if (classified (splitExt name).1).2 = [] then name
        else assembleStemNoCleanup (classified (splitExt name).1).1
          (classified (splitExt name).1).2 ++ (splitExt name).2)
      rw [hg2, if_neg (by simp), if_neg hp, (assembleStem_eq hgood hp hysh).2]

/-- C3 (amended): the already-clean short-circuit fires exactly when the
stem ends with `_(` + (19|20)-year + `)` and the stem has no literal
`_1_` substring; under the guard the input is returned unchanged, and
otherwise the full pipeline of lines 50–90 runs. A bare leading `1_`
counter is not part of the test and does not prevent the short-circuit. -/
theorem C3_short_circuit_guard (name : List Char) :
    build_clean_name name =
      if readyEnd (splitExt name).1 && !containsDup1 (splitExt name).1 then name
      else pipelineRest name := by
  by_cases hg : (readyEnd (splitExt name).1 && !containsDup1 (splitExt name).1)
      = true
  · rw [if_pos hg]
    exact build_guard_unchanged hg
  · rw [if_neg hg]
    show (if guardReady (splitExt name).1 = true then name
      else if (classified (splitExt name).1).2 = [] then name
      else assembleStem (classified (splitExt name).1).1
        (classified (splitExt name).1).2 ++ (splitExt name).2) = pipelineRest name
    have hg2 : ¬ guardReady (splitExt name).1 = true := hg
    rw [if_neg hg2]
    rfl

/-- C3 counterexample: `1_Movie_(1999).mp4` carries a bare leading `1_`
duplicate-counter artifact, yet the short-circuit fires and the input is
returned unchanged, while the pipeline would have produced the different
name `Movie_(1999).mp4`. -/
theorem C3_counterexample :
    build_clean_name ("1_Movie_(1999).mp4".toList) =
        "1_Movie_(1999).mp4".toList ∧
      pipelineRest ("1_Movie_(1999).mp4".toList) = "Movie_(1999).mp4".toList ∧
      pipelineRest ("1_Movie_(1999).mp4".toList) ≠ "1_Movie_(1999).mp4".toList :=
  ⟨by decide, by decide, by decide⟩

/-- C9: for every filename whose stem ends with `_(` + (19|20)-year + `)`
and does not contain the substring `_1_`, the input is returned
unchanged — whatever rip tags, bracket junk, underscore runs or leading
counters appear earlier in the stem. -/
theorem C9_tail_decides_short_circuit (name : List Char)
    (h1 : readyEnd (splitExt name).1 = true)
    (h2 : containsDup1 (splitExt name).1 = false) :
    build_clean_name name = name := by
  apply build_guard_unchanged
  unfold guardReady
  rw [h1, h2]
  rfl

/-- C9 witness: a ready-tailed name full of junk and a leading counter is
returned unchanged. -/
theorem C9_witness :
    build_clean_name ("1_Bad__[YTS]_Movie_(1999).mp4".toList) =
      "1_Bad__[YTS]_Movie_(1999).mp4".toList :=
  C9_tail_decides_short_circuit _ (by decide) (by decide)

/-- C6: whenever classification leaves no title token, the input is
returned exactly unchanged — also when a year was extracted. -/
theorem C6_no_title_unchanged (name : List Char)
    (h : (classified (splitExt name).1).2 = []) :
    build_clean_name name = name :=
  build_noparts_unchanged h

/-- C6 witness: `(1999).mkv` loses all tokens (its year is extracted) and
is returned unchanged. -/
theorem C6_witness :
    build_clean_name ("(1999).mkv".toList) = "(1999).mkv".toList :=
  C6_no_title_unchanged _ (by decide)

/-- C2 (amended): whenever the pipeline actually reassembles a name (the
short-circuit did not fire and title tokens survive), the stem of the
returned name contains no `__` run and neither starts nor ends with `_`.
As stated over all inputs the claim fails, because short-circuited and
unsalvageable names are returned verbatim. -/
theorem C2_reassembled_stem_invariant (name : List Char)
    (hguard : guardReady (splitExt name).1 = false)
    (hparts : (classified (splitExt name).1).2 ≠ []) :
    noDouble (splitExt (build_clean_name name)).1 = true ∧
      (splitExt (build_clean_name name)).1.head? ≠ some '_' ∧
      (splitExt (build_clean_name name)).1.getLast? ≠ some '_' := by
  have hgood : ∀ t ∈ (classified (splitExt name).1).2, GoodTok t :=
    fun t ht => (classified_parts_good _ t ht).1
  have hysh : ∀ y0, (classified (splitExt name).1).1 = some y0 →
      isYearTok y0 = true := fun y0 h0 => classified_year_shape h0
  have htg := yearTail_tailGood hysh
  have hjne := join_ne_nil hgood hparts
  have hAne : joinUnderscore (classified (splitExt name).1).2 ++
      yearTail (classified (splitExt name).1).1 ≠ [] := fun h0 =>
    hjne (List.append_eq_nil.mp h0).1
  have hAdot := joined_no_dot hgood (tailGood_chars htg).1
  rw [build_reassembled hguard hparts,
    splitExt_concat hAne hAdot (splitExt_suffix_shape name)]
  refine ⟨noDouble_join_tail _ hgood hparts _ (tailGood_chars htg).2, ?_, ?_⟩
  · intro hc
    cases hcl : (classified (splitExt name).1).2 with
    | nil => exact hparts hcl
    | cons p ps =>
      rw [hcl] at hc
      have hpg : GoodTok p := hgood p (by rw [hcl]; simp)
      rw [join_tail_head hpg.1 ps _] at hc
      exact goodTok_no_underscore hpg (List.mem_of_mem_head? hc)
  · intro hc
    exact joined_tail_getLast hgood hparts htg '_' hc rfl

/-- C2 witness: `A__B.2019.mp4` is reassembled and its output stem
satisfies the underscore invariant. -/
theorem C2_witness :
    noDouble (splitExt (build_clean_name ("A__B.2019.mp4".toList))).1 = true :=
  (C2_reassembled_stem_invariant _ (by decide) (by decide)).1

/-- C2 counterexample: `__x_(1999).mp4` matches the ready pattern, so it
is returned unchanged — its stem starts with `_` and contains `__`,
refuting the claim for every input filename. -/
theorem C2_counterexample :
    build_clean_name ("__x_(1999).mp4".toList) = "__x_(1999).mp4".toList ∧
      noDouble (splitExt (build_clean_name ("__x_(1999).mp4".toList))).1 = false ∧
      (splitExt (build_clean_name ("__x_(1999).mp4".toList))).1.head?
        = some '_' :=
  ⟨by decide, by decide, by decide⟩

/-- C7 (amended): whenever the pipeline reassembles a name, any recorded
year is `(19|20)` followed by two digits, and the output stem ends with a
parenthesis exactly when a year was recorded — in which case its tail is
`_(` + year + `)`, i.e. it matches `READY_PATTERN`. As stated over all
inputs the claim fails on names that are returned verbatim. -/
theorem C7_year_format_invariant (name : List Char)
    (hguard : guardReady (splitExt name).1 = false)
    (hparts : (classified (splitExt name).1).2 ≠ []) :
    ((classified (splitExt name).1).1 = none →
      (splitExt (build_clean_name name)).1.getLast? ≠ some ')') ∧
    (∀ y0, (classified (splitExt name).1).1 = some y0 →
      isYearTok y0 = true ∧
        readyEnd (splitExt (build_clean_name name)).1 = true) := by
  have hgood : ∀ t ∈ (classified (splitExt name).1).2, GoodTok t :=
    fun t ht => (classified_parts_good _ t ht).1
  have hysh : ∀ y0, (classified (splitExt name).1).1 = some y0 →
      isYearTok y0 = true := fun y0 h0 => classified_year_shape h0
  have htg := yearTail_tailGood hysh
  have hjne := join_ne_nil hgood hparts
  have hAne : joinUnderscore (classified (splitExt name).1).2 ++
      yearTail (classified (splitExt name).1).1 ≠ [] := fun h0 =>
    hjne (List.append_eq_nil.mp h0).1
  have hAdot := joined_no_dot hgood (tailGood_chars htg).1
  rw [build_reassembled hguard hparts,
    splitExt_concat hAne hAdot (splitExt_suffix_shape name)]
  constructor
  · intro hy hc
    rw [hy] at hc
    rw [show yearTail (none : Option (List Char)) = [] from rfl,
      List.append_nil] at hc
    obtain ⟨t, ht, hct⟩ := joined_getLast_mem hgood hparts ')' hc
    exact (goodTok_chars (hgood t ht) ')' hct).2.2.1 rfl
  · intro y0 hy
    refine ⟨classified_year_shape hy, ?_⟩
    obtain ⟨a, b, c, d, hy0, hsh⟩ := isYearTok_shape (classified_year_shape hy)
    rw [hy, hy0]
    show readyEnd (joinUnderscore (classified (splitExt name).1).2 ++
      ['_', '(', a, b, c, d, ')']) = true
    exact readyEnd_concat hsh

/-- C7 witness: `Hello_(extra)_2011.mkv` records the year 2011 and its
output stem ends with a ready `_\(year\)` tail. -/
theorem C7_witness :
    isYearTok ("2011".toList) = true ∧
      readyEnd (splitExt (build_clean_name
        ("Hello_(extra)_2011.mkv".toList))).1 = true :=
  (C7_year_format_invariant _ (by decide) (by decide)).2 ("2011".toList)
    (by decide)

/-- C7 counterexample: `(extra).mp4` is returned unchanged; its stem ends
with a parenthesized suffix that does not match `_\((19|20)\d{2}\)`. -/
theorem C7_counterexample :
    build_clean_name ("(extra).mp4".toList) = "(extra).mp4".toList ∧
      (splitExt (build_clean_name ("(extra).mp4".toList))).1.getLast?
        = some ')' ∧
      readyEnd (splitExt (build_clean_name ("(extra).mp4".toList))).1 = false :=
  ⟨by decide, by decide, by decide⟩

/-- C8 counterexample: a filename without an extension is not treated as
unsalvageable — `Movie-2019` is renamed rather than returned unchanged. -/
theorem C8_counterexample :
    build_clean_name ("Movie-2019".toList) ≠ "Movie-2019".toList := by decide

/-- C8 (amended): an empty filename yields no title token and is returned
unchanged; a filename without an extension is not rejected — its whole
name becomes the stem with an empty suffix and it is cleaned like any
other, e.g. `Movie-2019` becomes `Movie_(2019)`. -/
theorem C8_malformed_input :
    build_clean_name ([] : List Char) = [] ∧
      build_clean_name ("Movie-2019".toList) = "Movie_(2019)".toList ∧
      splitExt ("Movie-2019".toList) = ("Movie-2019".toList, []) :=
  ⟨by decide, by decide, by decide⟩

/-- C4: `is_unwanted` holds exactly when the lower-cased token is a member
of the configured tag set — exact membership, never substring matching:
`x1080p` strictly contains the tag `1080p` yet is not unwanted. -/
theorem C4_is_unwanted_exact_membership :
    (∀ t : List Char, is_unwanted t = true ↔ pyLower t ∈ _UNWANTED_EQUAL) ∧
      is_unwanted ("x1080p".toList) = false ∧
      "1080p".toList <:+: "x1080p".toList := by
  refine ⟨fun t => ?_, by decide, by decide⟩
  show _UNWANTED_EQUAL.elem (pyLower t) = true ↔ pyLower t ∈ _UNWANTED_EQUAL
  exact List.elem_iff

/-- C5: in the classification loop a purely numeric token of fewer than
four digits is dropped exactly when it is the bare string `1`, and kept
as a sequel number otherwise; concretely `The.Matrix.1.1999.mkv` and
`John_Wick_3_2019.mp4` normalise as the spec states. -/
theorem C5_bare_one_dropped_sequels_kept :
    build_clean_name ("The.Matrix.1.1999.mkv".toList)
        = "The_Matrix_(1999).mkv".toList ∧
      build_clean_name ("John_Wick_3_2019.mp4".toList)
        = "John_Wick_3_(2019).mp4".toList ∧
      ∀ (y : Option (List Char)) (ts : List (List Char)) (t : List Char),
        t.all Char.isDigit = true → t ≠ [] → t.length < 4 →
        (classifyTokens y (t :: ts)).2 =
          if t = ['1'] then (classifyTokens y ts).2
          else t :: (classifyTokens y ts).2 := by
  refine ⟨by decide, by decide, ?_⟩
  intro y ts t hdig hne hlen
  have hyt : isYearTok t = false := isYearTok_false_of_short hlen
  have hunw : is_unwanted t = false := all_digit_not_unwanted hdig
  have hbr : t.any isBracketChar = false := all_digit_no_bracket hdig
  simp only [classifyTokens, if_neg hne]
  rw [if_neg (by simp [hyt] : ¬(y.isNone && isYearTok t) = true)]
  rw [if_neg (by simp [hunw, hbr] :
    ¬(is_unwanted t || t.any isBracketChar) = true)]
  by_cases h1 : t = ['1']
  · rw [if_pos h1, if_pos h1]
  · rw [if_neg h1, if_neg h1, ite_self]

/-- C5 witness: the numeric-token rule instantiated at the token `2`,
which is kept. -/
theorem C5_witness :
    (classifyTokens none [['2']]).2 =
      if (['2'] : List Char) = ['1'] then
        (classifyTokens none ([] : List (List Char))).2
      else ['2'] :: (classifyTokens none ([] : List (List Char))).2 :=
  C5_bare_one_dropped_sequels_kept.2.2 none [] ['2']
    (by decide) (by decide) (by decide)
